import Mathlib

/-!
Verification of the `sessions` Go library (jiyi27/sessions): a shallow
embedding of the session store engine — the session entity, the in-memory
tables, the identifier-generation retry loop, the payload deep copier and
the eviction sweeps — together with proofs and refutations of the spec's
claims about them.

Go maps are embedded as association lists (`alookup` / `aupsert` / `aremove`
mirror map read, map assignment and `delete`).  Mutable Go payload data
(`map[string]interface{}` / `[]interface{}` trees) is embedded with an
explicit heap: `GoVal.ref` is a pointer into a `Heap` of map/slice objects,
so aliasing and in-place mutation are expressible.  Time is an explicit
`Int` Unix-seconds parameter; the `crypto/rand`-backed generator is an
explicit oracle parameter (a list of its successive outcomes).  Fallible Go
functions return `Except`.
-/

namespace Sessions

/-- Unix timestamp in seconds, as produced by Go `time.Now().Unix()`. -/
abbrev Time := Int

/-- Association-list read, embedding a Go map lookup `v, ok := m[k]`. -/
def alookup {κ α : Type} [DecidableEq κ] : List (κ × α) → κ → Option α
  | [], _ => none
  | (k', v) :: rest, k => if k' = k then some v else alookup rest k

/-- Association-list write, embedding a Go map assignment `m[k] = v`:
replaces the entry when `k` is present, appends it otherwise. -/
def aupsert {κ α : Type} [DecidableEq κ] : List (κ × α) → κ → α → List (κ × α)
  | [], k, v => [(k, v)]
  | (k', v') :: rest, k, v => if k' = k then (k, v) :: rest else (k', v') :: aupsert rest k v

/-- Association-list removal, embedding Go `delete(m, k)`. -/
def aremove {κ α : Type} [DecidableEq κ] : List (κ × α) → κ → List (κ × α)
  | [], _ => []
  | (k', v) :: rest, k => if k' = k then rest else (k', v) :: aremove rest k

/-- The keys of a Go map are pairwise distinct; for the association-list
embedding this is the invariant that the key column has no duplicates. -/
def keysNodup {κ α : Type} (l : List (κ × α)) : Prop := (l.map Prod.fst).Nodup

/-- Go `Options` from `options.go`: cookie configuration, a subset of
`http.Cookie` fields.  `sameSite` embeds the integer enum `http.SameSite`. -/
structure Options where
  path : String
  domain : String
  maxAge : Int
  secure : Bool
  httpOnly : Bool
  sameSite : Nat
deriving DecidableEq, Repr

/-- The closed variant set of session payload values (spec section 9:
string, number, bool, nested map, nested sequence).  Maps and slices are
Go reference types, so they appear here as a `ref` into the `Heap` below;
scalars are immediate. -/
inductive GoVal where
  | str (s : String)
  | int (n : Int)
  | bool (b : Bool)
  | nil
  | ref (a : Nat)
deriving DecidableEq, Repr

/-- A heap object: the backing store of a Go `map[string]interface{}` or of
a `[]interface{}`. -/
inductive HObj where
  | hmap (entries : List (String × GoVal))
  | hslice (elems : List GoVal)
deriving DecidableEq, Repr

/-- The payload heap: allocated map/slice objects addressed by `Nat`, with
`next` the next fresh address.  Distinct addresses model distinct backing
stores; a shared address models Go aliasing. -/
structure Heap where
  objs : List (Nat × HObj)
  next : Nat
deriving DecidableEq, Repr

/-- Dereference a heap address (nil/absent pointer reads give `none`). -/
def Heap.find (h : Heap) (a : Nat) : Option HObj := alookup h.objs a

/-- Allocate a fresh object (Go `make(map...)`, `append` building a new
backing array, or a decoder materialising a value): returns its address. -/
def Heap.alloc (h : Heap) (o : HObj) : Nat × Heap :=
  (h.next, ⟨aupsert h.objs h.next o, h.next + 1⟩)

/-- In-place mutation of the object stored at address `a` (a Go write
through any handle aliasing that backing store). -/
def Heap.update (h : Heap) (a : Nat) (o : HObj) : Heap :=
  ⟨aupsert h.objs a o, h.next⟩

/-- Pure value trees: the observation of a payload value obtained by
dereferencing every pointer.  Two handles are "structurally equal" exactly
when they read back to the same `PVal`. -/
inductive PVal where
  | pStr (s : String)
  | pInt (n : Int)
  | pBool (b : Bool)
  | pNil
  | pMap (entries : List (String × PVal))
  | pSlice (elems : List PVal)

mutual

/-- Read a payload value back to a pure tree, dereferencing the heap.  The
fuel bounds the dereferencing depth; every acyclic value reads back at some
finite fuel, a cyclic one at none. -/
def readVal : Nat → Heap → GoVal → Option PVal
  | 0, _, _ => none
  | _+1, _, .str s => some (.pStr s)
  | _+1, _, .int n => some (.pInt n)
  | _+1, _, .bool b => some (.pBool b)
  | _+1, _, .nil => some .pNil
  | f+1, h, .ref a =>
    match h.find a with
    | some (.hmap es) => (readEntries f h es).map .pMap
    | some (.hslice xs) => (readElems f h xs).map .pSlice
    | none => none

/-- Read back the entry list of a map object. -/
def readEntries : Nat → Heap → List (String × GoVal) → Option (List (String × PVal))
  | _, _, [] => some []
  | 0, _, _ :: _ => none
  | f+1, h, (k, v) :: rest =>
    match readVal f h v with
    | none => none
    | some t =>
      match readEntries f h rest with
      | none => none
      | some ts => some ((k, t) :: ts)

/-- Read back the element list of a slice object. -/
def readElems : Nat → Heap → List GoVal → Option (List PVal)
  | _, _, [] => some []
  | 0, _, _ :: _ => none
  | f+1, h, v :: rest =>
    match readVal f h v with
    | none => none
    | some t =>
      match readElems f h rest with
      | none => none
      | some ts => some (t :: ts)

end

mutual

/-- The payload deep copier, embedding `CopyableMap.DeepCopy` /
`CopyableSlice.DeepCopy` from `serializer.go` (and the gob round trip of
`DeepCopyMap` in `deepcopy.go`, which materialises the same fresh tree for
the closed variant set): scalars are returned as-is, every nested map and
slice is recursively rebuilt in freshly allocated backing stores.  The fuel
bounds the recursion depth exactly as the Go recursion is bounded by the
(finite, acyclic) value being copied; `none` embeds the copier failing
(`UnsupportedTypeError` / gob failure), which the callers propagate. -/
def deepCopyVal : Nat → Heap → GoVal → Option (GoVal × Heap)
  | 0, _, _ => none
  | _+1, h, .str s => some (.str s, h)
  | _+1, h, .int n => some (.int n, h)
  | _+1, h, .bool b => some (.bool b, h)
  | _+1, h, .nil => some (.nil, h)
  | f+1, h, .ref a =>
    match h.find a with
    | some (.hmap es) =>
      match deepCopyEntries f h es with
      | none => none
      | some (es', h1) => some (.ref (h1.alloc (.hmap es')).1, (h1.alloc (.hmap es')).2)
    | some (.hslice xs) =>
      match deepCopyElems f h xs with
      | none => none
      | some (xs', h1) => some (.ref (h1.alloc (.hslice xs')).1, (h1.alloc (.hslice xs')).2)
    | none => none

/-- Deep-copy the entries of a map object (the `for k, v := range m` loop
of `CopyableMap.DeepCopy`). -/
def deepCopyEntries : Nat → Heap → List (String × GoVal) → Option (List (String × GoVal) × Heap)
  | _, h, [] => some ([], h)
  | 0, _, _ :: _ => none
  | f+1, h, (k, v) :: rest =>
    match deepCopyVal f h v with
    | none => none
    | some (v', h1) =>
      match deepCopyEntries f h1 rest with
      | none => none
      | some (rest', h2) => some ((k, v') :: rest', h2)

/-- Deep-copy the elements of a slice object (the `for _, v := range s`
loop of `CopyableSlice.DeepCopy`). -/
def deepCopyElems : Nat → Heap → List GoVal → Option (List GoVal × Heap)
  | _, h, [] => some ([], h)
  | 0, _, _ :: _ => none
  | f+1, h, v :: rest =>
    match deepCopyVal f h v with
    | none => none
    | some (v', h1) =>
      match deepCopyElems f h1 rest with
      | none => none
      | some (rest', h2) => some (v' :: rest', h2)

end

/-! Well-formedness of values and heaps, and basic lemmas about the
association-list operations. -/

/-- Boolean check: every pointer inside the value is below `n`. -/
def valRefLt : GoVal → Nat → Bool
  | .ref a, n => decide (a < n)
  | _, _ => true

/-- Boolean check: every pointer inside the object is below `n`. -/
def objRefsLt (o : HObj) (n : Nat) : Bool :=
  match o with
  | .hmap es => es.all (fun kv => valRefLt kv.2 n)
  | .hslice xs => xs.all (fun v => valRefLt v n)

/-- Decidable heap well-formedness: every allocated address is below the
allocation counter and every stored pointer is to an allocated-range
address.  Every heap reachable from `∅` by `alloc`/`update` of
well-bounded objects satisfies this. -/
def Heap.wfB (h : Heap) : Bool :=
  h.objs.all (fun p => decide (p.1 < h.next) && objRefsLt p.2 h.next)

/-- Predicate: `P` holds of every pointer inside the value. -/
def valP (P : Nat → Prop) : GoVal → Prop
  | .ref a => P a
  | _ => True

/-- Predicate: `P` holds of every pointer inside the entry list. -/
def entsP (P : Nat → Prop) (es : List (String × GoVal)) : Prop := ∀ kv ∈ es, valP P kv.2

/-- Predicate: `P` holds of every pointer inside the element list. -/
def elemsP (P : Nat → Prop) (xs : List GoVal) : Prop := ∀ v ∈ xs, valP P v

/-- Predicate: `P` holds of every pointer inside the object. -/
def objP (P : Nat → Prop) : HObj → Prop
  | .hmap es => entsP P es
  | .hslice xs => elemsP P xs

/-- The heap is closed over the address set `P`: objects stored at
`P`-addresses only point at `P`-addresses. -/
def Heap.closed (h : Heap) (P : Nat → Prop) : Prop :=
  ∀ a o, P a → h.find a = some o → objP P o

/-- Every allocated address is below the allocation counter. -/
def Heap.domLt (h : Heap) : Prop := ∀ a, (h.find a).isSome = true → a < h.next

/-- Propositional heap well-formedness. -/
def Heap.WF (h : Heap) : Prop := h.domLt ∧ h.closed (fun a => a < h.next)

theorem alookup_some_mem {κ α : Type} [DecidableEq κ] {l : List (κ × α)} {k : κ} {v : α}
    (hl : alookup l k = some v) : (k, v) ∈ l := by
  induction l with
  | nil => simp [alookup] at hl
  | cons p rest ih =>
    obtain ⟨k', v'⟩ := p
    by_cases hk : k' = k
    · subst hk
      simp [alookup] at hl
      subst hl; exact List.mem_cons_self _ _
    · simp [alookup, hk] at hl
      exact List.mem_cons_of_mem _ (ih hl)

theorem alookup_aupsert_self {κ α : Type} [DecidableEq κ] (l : List (κ × α)) (k : κ) (v : α) :
    alookup (aupsert l k v) k = some v := by
  induction l with
  | nil => simp [alookup, aupsert]
  | cons p rest ih =>
    obtain ⟨k', v'⟩ := p
    by_cases hk : k' = k
    · subst hk; simp [alookup, aupsert]
    · simp [alookup, aupsert, hk, ih]

theorem alookup_aupsert_ne {κ α : Type} [DecidableEq κ] (l : List (κ × α)) (k k' : κ) (v : α)
    (hne : k' ≠ k) : alookup (aupsert l k v) k' = alookup l k' := by
  induction l with
  | nil => simp [alookup, aupsert, Ne.symm hne]
  | cons p rest ih =>
    obtain ⟨a, b⟩ := p
    by_cases hk : a = k
    · subst hk
      simp [aupsert, alookup, Ne.symm hne]
    · simp [aupsert, hk, alookup, ih]

theorem alookup_none_not_mem {κ α : Type} [DecidableEq κ] {l : List (κ × α)} {k : κ}
    (hl : alookup l k = none) : k ∉ l.map Prod.fst := by
  induction l with
  | nil => simp
  | cons p rest ih =>
    obtain ⟨a, b⟩ := p
    by_cases hk : a = k
    · subst hk; simp [alookup] at hl
    · simp only [alookup, if_neg hk] at hl
      simp only [List.map_cons, List.mem_cons]
      rintro (h | h)
      · exact hk h.symm
      · exact ih hl h

theorem aupsert_of_none {κ α : Type} [DecidableEq κ] {l : List (κ × α)} {k : κ} (v : α)
    (hl : alookup l k = none) : aupsert l k v = l ++ [(k, v)] := by
  induction l with
  | nil => simp [aupsert]
  | cons p rest ih =>
    obtain ⟨k', v'⟩ := p
    by_cases hk : k' = k
    · subst hk; simp [alookup] at hl
    · simp [alookup, hk] at hl
      simp [aupsert, hk, ih hl]

theorem aupsert_keys_of_some {κ α : Type} [DecidableEq κ] {l : List (κ × α)} {k : κ} {w : α} (v : α)
    (hl : alookup l k = some w) : (aupsert l k v).map Prod.fst = l.map Prod.fst := by
  induction l with
  | nil => simp [alookup] at hl
  | cons p rest ih =>
    obtain ⟨k', v'⟩ := p
    by_cases hk : k' = k
    · subst hk; simp [aupsert]
    · simp [alookup, hk] at hl
      simp [aupsert, hk, ih hl]

theorem keysNodup_aupsert {κ α : Type} [DecidableEq κ] {l : List (κ × α)} (k : κ) (v : α)
    (hl : keysNodup l) : keysNodup (aupsert l k v) := by
  cases hsome : alookup l k with
  | none =>
    rw [aupsert_of_none v hsome]
    unfold keysNodup at hl ⊢
    rw [List.map_append]
    simp only [List.map_cons, List.map_nil]
    rw [List.nodup_append]
    exact ⟨hl, List.nodup_singleton _, by
      intro a ha hb
      simp at hb
      subst hb
      exact alookup_none_not_mem hsome ha⟩
  | some w =>
    unfold keysNodup at hl ⊢
    rw [aupsert_keys_of_some v hsome]
    exact hl

theorem Heap.find_alloc_self (h : Heap) (o : HObj) :
    (h.alloc o).2.find h.next = some o := by
  simp [Heap.alloc, Heap.find, alookup_aupsert_self]

theorem Heap.find_alloc_ne (h : Heap) (o : HObj) {a : Nat} (ha : a ≠ h.next) :
    (h.alloc o).2.find a = h.find a := by
  simp [Heap.alloc, Heap.find, alookup_aupsert_ne _ _ _ _ ha]

theorem Heap.next_alloc (h : Heap) (o : HObj) : (h.alloc o).2.next = h.next + 1 := rfl

theorem Heap.fst_alloc (h : Heap) (o : HObj) : (h.alloc o).1 = h.next := rfl

theorem Heap.find_update_ne (h : Heap) (o : HObj) {a b : Nat} (ha : a ≠ b) :
    (h.update b o).find a = h.find a := by
  simp [Heap.update, Heap.find, alookup_aupsert_ne _ _ _ _ ha]

theorem valP_mono {P Q : Nat → Prop} (hpq : ∀ a, P a → Q a) {v : GoVal} (hv : valP P v) :
    valP Q v := by
  cases v <;> simp [valP] at hv ⊢ <;> exact hpq _ hv

theorem entsP_mono {P Q : Nat → Prop} (hpq : ∀ a, P a → Q a) {es : List (String × GoVal)}
    (hes : entsP P es) : entsP Q es :=
  fun kv hkv => valP_mono hpq (hes kv hkv)

theorem elemsP_mono {P Q : Nat → Prop} (hpq : ∀ a, P a → Q a) {xs : List GoVal}
    (hxs : elemsP P xs) : elemsP Q xs :=
  fun v hv => valP_mono hpq (hxs v hv)

theorem objP_mono {P Q : Nat → Prop} (hpq : ∀ a, P a → Q a) {o : HObj} (ho : objP P o) :
    objP Q o := by
  cases o with
  | hmap es => exact entsP_mono hpq ho
  | hslice xs => exact elemsP_mono hpq ho

theorem valRefLt_valP {v : GoVal} {n : Nat} (hv : valRefLt v n = true) :
    valP (fun a => a < n) v := by
  cases v <;> simp [valRefLt, valP] at hv ⊢ <;> exact hv

theorem objRefsLt_objP {o : HObj} {n : Nat} (ho : objRefsLt o n = true) :
    objP (fun a => a < n) o := by
  cases o with
  | hmap es =>
    simp only [objRefsLt, List.all_eq_true] at ho
    exact fun kv hkv => valRefLt_valP (ho kv hkv)
  | hslice xs =>
    simp only [objRefsLt, List.all_eq_true] at ho
    exact fun v hv => valRefLt_valP (ho v hv)

theorem read_agree (f : Nat) :
    ∀ (P : Nat → Prop) (h1 h2 : Heap),
      (∀ a, P a → h2.find a = h1.find a) →
      h1.closed P →
      (∀ v, valP P v → readVal f h2 v = readVal f h1 v)
      ∧ (∀ es, entsP P es → readEntries f h2 es = readEntries f h1 es)
      ∧ (∀ xs, elemsP P xs → readElems f h2 xs = readElems f h1 xs) := by
  induction f with
  | zero =>
    intro P h1 h2 _ _
    refine ⟨fun v _ => rfl, fun es _ => ?_, fun xs _ => ?_⟩
    · cases es <;> rfl
    · cases xs <;> rfl
  | succ f ih =>
    intro P h1 h2 hag hcl
    obtain ⟨ihv, ihe, ihl⟩ := ih P h1 h2 hag hcl
    refine ⟨?_, ?_, ?_⟩
    · intro v hv
      cases v with
      | str s => rfl
      | int n => rfl
      | bool b => rfl
      | nil => rfl
      | ref a =>
        have hP : P a := hv
        have hfa : h2.find a = h1.find a := hag a hP
        simp only [readVal, hfa]
        cases hfind : h1.find a with
        | none => rfl
        | some o =>
          cases o with
          | hmap es =>
            have hes : entsP P es := hcl a _ hP hfind
            simp only [ihe es hes]
          | hslice xs =>
            have hxs : elemsP P xs := hcl a _ hP hfind
            simp only [ihl xs hxs]
    · intro es hes
      cases es with
      | nil => rfl
      | cons kv rest =>
        obtain ⟨k, v⟩ := kv
        have h1v : valP P v := hes (k, v) (List.mem_cons_self _ _)
        have h1r : entsP P rest := fun kv hkv => hes kv (List.mem_cons_of_mem _ hkv)
        simp only [readEntries, ihv v h1v, ihe rest h1r]
    · intro xs hxs
      cases xs with
      | nil => rfl
      | cons v rest =>
        have h1v : valP P v := hxs v (List.mem_cons_self _ _)
        have h1r : elemsP P rest := fun w hw => hxs w (List.mem_cons_of_mem _ hw)
        simp only [readElems, ihv v h1v, ihl rest h1r]

/-- Post-conditions relating the heap before a deep-copy step to the heap
after it: the allocation counter only grows, every old address is
untouched, the result stays well-formed, and every freshly allocated
object only points into the fresh address range. -/
structure CopyPost (h h' : Heap) : Prop where
  nle : h.next ≤ h'.next
  pres : ∀ a, a < h.next → h'.find a = h.find a
  domLt : h'.domLt
  closedLt : h'.closed (fun a => a < h'.next)
  closedFresh : ∀ a o, h.next ≤ a → h'.find a = some o →
    objP (fun b => h.next ≤ b ∧ b < h'.next) o

theorem CopyPost.refl {h : Heap} (hwf : h.WF) : CopyPost h h where
  nle := Nat.le_refl _
  pres := fun _ _ => rfl
  domLt := hwf.1
  closedLt := hwf.2
  closedFresh := fun a o ha hfind => by
    have hlt := hwf.1 a (by rw [hfind]; rfl)
    exact absurd hlt (by omega)

theorem CopyPost.trans {h h1 h2 : Heap} (p : CopyPost h h1) (q : CopyPost h1 h2) :
    CopyPost h h2 where
  nle := Nat.le_trans p.nle q.nle
  pres := fun a ha => by
    rw [q.pres a (Nat.lt_of_lt_of_le ha p.nle), p.pres a ha]
  domLt := q.domLt
  closedLt := q.closedLt
  closedFresh := fun a o ha hfind => by
    by_cases hlt : a < h1.next
    · rw [q.pres a hlt] at hfind
      exact objP_mono (fun b hb => ⟨hb.1, Nat.lt_of_lt_of_le hb.2 q.nle⟩)
        (p.closedFresh a o ha hfind)
    · exact objP_mono (fun b hb => ⟨Nat.le_trans p.nle hb.1, hb.2⟩)
        (q.closedFresh a o (Nat.le_of_not_lt hlt) hfind)

theorem CopyPost.allocStep {h h1 : Heap} (p : CopyPost h h1) (o : HObj)
    (ho : objP (fun b => h.next ≤ b ∧ b < h1.next) o) :
    CopyPost h (h1.alloc o).2 where
  nle := by rw [Heap.next_alloc]; have := p.nle; omega
  pres := fun a ha => by
    have hne : a ≠ h1.next := by have := p.nle; omega
    rw [Heap.find_alloc_ne _ _ hne, p.pres a ha]
  domLt := fun a ha => by
    rw [Heap.next_alloc]
    by_cases hne : a = h1.next
    · omega
    · rw [Heap.find_alloc_ne _ _ hne] at ha
      have := p.domLt a ha
      omega
  closedLt := fun a o' ha hfind => by
    rw [Heap.next_alloc] at ha
    by_cases hne : a = h1.next
    · subst hne
      rw [Heap.find_alloc_self] at hfind
      cases hfind
      exact objP_mono (fun b hb => by rw [Heap.next_alloc]; omega) ho
    · rw [Heap.find_alloc_ne _ _ hne] at hfind
      have halt : a < h1.next := p.domLt a (by rw [hfind]; rfl)
      exact objP_mono (fun b hb => by rw [Heap.next_alloc]; omega)
        (p.closedLt a o' halt hfind)
  closedFresh := fun a o' ha hfind => by
    by_cases hne : a = h1.next
    · subst hne
      rw [Heap.find_alloc_self] at hfind
      cases hfind
      exact objP_mono (fun b hb => by rw [Heap.next_alloc]; omega) ho
    · rw [Heap.find_alloc_ne _ _ hne] at hfind
      exact objP_mono (fun b hb => by rw [Heap.next_alloc]; omega)
        (p.closedFresh a o' ha hfind)

theorem Heap.wfB_WF {h : Heap} (hw : h.wfB = true) : h.WF := by
  simp only [Heap.wfB, List.all_eq_true, Bool.and_eq_true, decide_eq_true_eq] at hw
  constructor
  · intro a ha
    cases hfind : h.find a with
    | none => rw [hfind] at ha; simp at ha
    | some o => exact (hw _ (alookup_some_mem hfind)).1
  · intro a o _ hfind
    exact objRefsLt_objP (hw _ (alookup_some_mem hfind)).2

/-- Main deep-copy lemma, by induction on the copier's recursion depth:
a successful copy extends the heap without touching any old address, the
copied value only points into the freshly allocated range, and it reads
back to exactly the tree the source read back to. -/
theorem copyMain (f : Nat) :
    (∀ (h : Heap) (v v' : GoVal) (h' : Heap),
       h.WF → valP (fun a => a < h.next) v → deepCopyVal f h v = some (v', h') →
       CopyPost h h' ∧ valP (fun a => h.next ≤ a ∧ a < h'.next) v'
       ∧ ∀ t, readVal f h v = some t → readVal f h' v' = some t)
  ∧ (∀ (h : Heap) (es es' : List (String × GoVal)) (h' : Heap),
       h.WF → entsP (fun a => a < h.next) es → deepCopyEntries f h es = some (es', h') →
       CopyPost h h' ∧ entsP (fun a => h.next ≤ a ∧ a < h'.next) es'
       ∧ ∀ ts, readEntries f h es = some ts → readEntries f h' es' = some ts)
  ∧ (∀ (h : Heap) (xs xs' : List GoVal) (h' : Heap),
       h.WF → elemsP (fun a => a < h.next) xs → deepCopyElems f h xs = some (xs', h') →
       CopyPost h h' ∧ elemsP (fun a => h.next ≤ a ∧ a < h'.next) xs'
       ∧ ∀ ts, readElems f h xs = some ts → readElems f h' xs' = some ts) := by
  induction f with
  | zero =>
    refine ⟨?_, ?_, ?_⟩
    · intro h v v' h' _ _ hcopy
      simp [deepCopyVal] at hcopy
    · intro h es es' h' hwf _ hcopy
      cases es with
      | nil =>
        simp only [deepCopyEntries, Option.some.injEq, Prod.mk.injEq] at hcopy
        obtain ⟨rfl, rfl⟩ := hcopy
        exact ⟨CopyPost.refl hwf, fun kv hkv => absurd hkv (List.not_mem_nil _),
          fun ts hts => hts⟩
      | cons kv rest => simp [deepCopyEntries] at hcopy
    · intro h xs xs' h' hwf _ hcopy
      cases xs with
      | nil =>
        simp only [deepCopyElems, Option.some.injEq, Prod.mk.injEq] at hcopy
        obtain ⟨rfl, rfl⟩ := hcopy
        exact ⟨CopyPost.refl hwf, fun v hv => absurd hv (List.not_mem_nil _),
          fun ts hts => hts⟩
      | cons v rest => simp [deepCopyElems] at hcopy
  | succ f ih =>
    obtain ⟨ihv, ihe, ihl⟩ := ih
    refine ⟨?_, ?_, ?_⟩
    · intro h v v' h' hwf hv hcopy
      cases v with
      | str s =>
        simp only [deepCopyVal, Option.some.injEq, Prod.mk.injEq] at hcopy
        obtain ⟨rfl, rfl⟩ := hcopy
        exact ⟨CopyPost.refl hwf, trivial, fun t ht => ht⟩
      | int n =>
        simp only [deepCopyVal, Option.some.injEq, Prod.mk.injEq] at hcopy
        obtain ⟨rfl, rfl⟩ := hcopy
        exact ⟨CopyPost.refl hwf, trivial, fun t ht => ht⟩
      | bool b =>
        simp only [deepCopyVal, Option.some.injEq, Prod.mk.injEq] at hcopy
        obtain ⟨rfl, rfl⟩ := hcopy
        exact ⟨CopyPost.refl hwf, trivial, fun t ht => ht⟩
      | nil =>
        simp only [deepCopyVal, Option.some.injEq, Prod.mk.injEq] at hcopy
        obtain ⟨rfl, rfl⟩ := hcopy
        exact ⟨CopyPost.refl hwf, trivial, fun t ht => ht⟩
      | ref a =>
        have hP : a < h.next := hv
        cases hfind : h.find a with
        | none => simp [deepCopyVal, hfind] at hcopy
        | some o =>
          cases o with
          | hmap es =>
            cases hents : deepCopyEntries f h es with
            | none => simp [deepCopyVal, hfind, hents] at hcopy
            | some pr =>
              obtain ⟨es', h1⟩ := pr
              simp only [deepCopyVal, hfind, hents, Option.some.injEq,
                Prod.mk.injEq] at hcopy
              obtain ⟨hv', hh'⟩ := hcopy
              subst hv'; subst hh'
              have hes : entsP (fun b => b < h.next) es := hwf.2 a _ hP hfind
              obtain ⟨post1, fresh1, read1⟩ := ihe h es es' h1 hwf hes hents
              refine ⟨post1.allocStep _ fresh1, ⟨post1.nle, Nat.lt_succ_self _⟩, ?_⟩
              intro t ht
              simp only [readVal, hfind] at ht
              cases hre : readEntries f h es with
              | none => rw [hre] at ht; simp at ht
              | some ts =>
                rw [hre] at ht
                simp only [Option.map_some', Option.some.injEq] at ht
                subst ht
                have r1 : readEntries f h1 es' = some ts := read1 ts hre
                have hagree : ∀ b, b < h1.next →
                    (h1.alloc (.hmap es')).2.find b = h1.find b := by
                  intro b hb
                  exact Heap.find_alloc_ne _ _ (by omega)
                have hes1 : entsP (fun b => b < h1.next) es' :=
                  entsP_mono (fun b hb => hb.2) fresh1
                have := (read_agree f (fun b => b < h1.next) h1
                  (h1.alloc (.hmap es')).2 hagree post1.closedLt).2.1 es' hes1
                simp only [readVal, Heap.fst_alloc, Heap.find_alloc_self, this, r1,
                  Option.map_some']
          | hslice xs =>
            cases hxs : deepCopyElems f h xs with
            | none => simp [deepCopyVal, hfind, hxs] at hcopy
            | some pr =>
              obtain ⟨xs', h1⟩ := pr
              simp only [deepCopyVal, hfind, hxs, Option.some.injEq,
                Prod.mk.injEq] at hcopy
              obtain ⟨hv', hh'⟩ := hcopy
              subst hv'; subst hh'
              have hesx : elemsP (fun b => b < h.next) xs := hwf.2 a _ hP hfind
              obtain ⟨post1, fresh1, read1⟩ := ihl h xs xs' h1 hwf hesx hxs
              refine ⟨post1.allocStep _ fresh1, ⟨post1.nle, Nat.lt_succ_self _⟩, ?_⟩
              intro t ht
              simp only [readVal, hfind] at ht
              cases hre : readElems f h xs with
              | none => rw [hre] at ht; simp at ht
              | some ts =>
                rw [hre] at ht
                simp only [Option.map_some', Option.some.injEq] at ht
                subst ht
                have r1 : readElems f h1 xs' = some ts := read1 ts hre
                have hagree : ∀ b, b < h1.next →
                    (h1.alloc (.hslice xs')).2.find b = h1.find b := by
                  intro b hb
                  exact Heap.find_alloc_ne _ _ (by omega)
                have hxs1 : elemsP (fun b => b < h1.next) xs' :=
                  elemsP_mono (fun b hb => hb.2) fresh1
                have := (read_agree f (fun b => b < h1.next) h1
                  (h1.alloc (.hslice xs')).2 hagree post1.closedLt).2.2 xs' hxs1
                simp only [readVal, Heap.fst_alloc, Heap.find_alloc_self, this, r1,
                  Option.map_some']
    · intro h es es' h' hwf hes hcopy
      cases es with
      | nil =>
        simp only [deepCopyEntries, Option.some.injEq, Prod.mk.injEq] at hcopy
        obtain ⟨rfl, rfl⟩ := hcopy
        exact ⟨CopyPost.refl hwf, fun kv hkv => absurd hkv (List.not_mem_nil _),
          fun ts hts => hts⟩
      | cons kv rest =>
        obtain ⟨k, v⟩ := kv
        cases hv1 : deepCopyVal f h v with
        | none => simp [deepCopyEntries, hv1] at hcopy
        | some pr =>
          obtain ⟨v2, h1⟩ := pr
          cases hrest : deepCopyEntries f h1 rest with
          | none => simp [deepCopyEntries, hv1, hrest] at hcopy
          | some pr2 =>
            obtain ⟨rest2, h2⟩ := pr2
            simp only [deepCopyEntries, hv1, hrest, Option.some.injEq,
              Prod.mk.injEq] at hcopy
            obtain ⟨hes', hh'⟩ := hcopy
            subst hes'; subst hh'
            have hvv : valP (fun b => b < h.next) v := hes (k, v) (List.mem_cons_self _ _)
            have hrr : entsP (fun b => b < h.next) rest :=
              fun kv hkv => hes kv (List.mem_cons_of_mem _ hkv)
            obtain ⟨post1, fresh1, read1⟩ := ihv h v v2 h1 hwf hvv hv1
            have hwf1 : h1.WF := ⟨post1.domLt, post1.closedLt⟩
            have hrr1 : entsP (fun b => b < h1.next) rest :=
              entsP_mono (fun b hb => Nat.lt_of_lt_of_le hb post1.nle) hrr
            obtain ⟨post2, fresh2, read2⟩ := ihe h1 rest rest2 h2 hwf1 hrr1 hrest
            refine ⟨post1.trans post2, ?_, ?_⟩
            · intro kv hkv
              rcases List.mem_cons.mp hkv with hkv | hkv
              · subst hkv
                exact valP_mono (fun b hb => ⟨hb.1, Nat.lt_of_lt_of_le hb.2 post2.nle⟩) fresh1
              · exact valP_mono (fun b hb => ⟨Nat.le_trans post1.nle hb.1, hb.2⟩)
                  (fresh2 kv hkv)
            · intro ts hts
              cases hrv : readVal f h v with
              | none => simp [readEntries, hrv] at hts
              | some t0 =>
                cases hre : readEntries f h rest with
                | none => simp [readEntries, hrv, hre] at hts
                | some ts0 =>
                  simp only [readEntries, hrv, hre, Option.some.injEq] at hts
                  subst hts
                  have r1 : readVal f h1 v2 = some t0 := read1 t0 hrv
                  have r1' : readVal f h2 v2 = some t0 := by
                    have hv2b : valP (fun b => b < h1.next) v2 :=
                      valP_mono (fun b hb => hb.2) fresh1
                    have := (read_agree f (fun b => b < h1.next) h1 h2 post2.pres
                      post1.closedLt).1 v2 hv2b
                    rw [this, r1]
                  have rr1 : readEntries f h1 rest = some ts0 := by
                    have := (read_agree f (fun b => b < h.next) h h1 post1.pres
                      hwf.2).2.1 rest hrr
                    rw [this, hre]
                  have rr2 : readEntries f h2 rest2 = some ts0 := read2 ts0 rr1
                  simp [readEntries, r1', rr2]
    · intro h xs xs' h' hwf hxs hcopy
      cases xs with
      | nil =>
        simp only [deepCopyElems, Option.some.injEq, Prod.mk.injEq] at hcopy
        obtain ⟨rfl, rfl⟩ := hcopy
        exact ⟨CopyPost.refl hwf, fun v hv => absurd hv (List.not_mem_nil _),
          fun ts hts => hts⟩
      | cons v rest =>
        cases hv1 : deepCopyVal f h v with
        | none => simp [deepCopyElems, hv1] at hcopy
        | some pr =>
          obtain ⟨v2, h1⟩ := pr
          cases hrest : deepCopyElems f h1 rest with
          | none => simp [deepCopyElems, hv1, hrest] at hcopy
          | some pr2 =>
            obtain ⟨rest2, h2⟩ := pr2
            simp only [deepCopyElems, hv1, hrest, Option.some.injEq,
              Prod.mk.injEq] at hcopy
            obtain ⟨hes', hh'⟩ := hcopy
            subst hes'; subst hh'
            have hvv : valP (fun b => b < h.next) v := hxs v (List.mem_cons_self _ _)
            have hrr : elemsP (fun b => b < h.next) rest :=
              fun w hw => hxs w (List.mem_cons_of_mem _ hw)
            obtain ⟨post1, fresh1, read1⟩ := ihv h v v2 h1 hwf hvv hv1
            have hwf1 : h1.WF := ⟨post1.domLt, post1.closedLt⟩
            have hrr1 : elemsP (fun b => b < h1.next) rest :=
              elemsP_mono (fun b hb => Nat.lt_of_lt_of_le hb post1.nle) hrr
            obtain ⟨post2, fresh2, read2⟩ := ihl h1 rest rest2 h2 hwf1 hrr1 hrest
            refine ⟨post1.trans post2, ?_, ?_⟩
            · intro w hw
              rcases List.mem_cons.mp hw with hw | hw
              · subst hw
                exact valP_mono (fun b hb => ⟨hb.1, Nat.lt_of_lt_of_le hb.2 post2.nle⟩) fresh1
              · exact valP_mono (fun b hb => ⟨Nat.le_trans post1.nle hb.1, hb.2⟩)
                  (fresh2 w hw)
            · intro ts hts
              cases hrv : readVal f h v with
              | none => simp [readElems, hrv] at hts
              | some t0 =>
                cases hre : readElems f h rest with
                | none => simp [readElems, hrv, hre] at hts
                | some ts0 =>
                  simp only [readElems, hrv, hre, Option.some.injEq] at hts
                  subst hts
                  have r1 : readVal f h1 v2 = some t0 := read1 t0 hrv
                  have r1' : readVal f h2 v2 = some t0 := by
                    have hv2b : valP (fun b => b < h1.next) v2 :=
                      valP_mono (fun b hb => hb.2) fresh1
                    have := (read_agree f (fun b => b < h1.next) h1 h2 post2.pres
                      post1.closedLt).1 v2 hv2b
                    rw [this, r1]
                  have rr1 : readElems f h1 rest = some ts0 := by
                    have := (read_agree f (fun b => b < h.next) h h1 post1.pres
                      hwf.2).2.2 rest hrr
                    rw [this, hre]
                  have rr2 : readElems f h2 rest2 = some ts0 := read2 ts0 rr1
                  simp [readElems, r1', rr2]

/-- Frame rule: an in-place mutation at an address outside the set `P`
does not change the readback of any value whose pointers stay inside a
`P`-closed heap region. -/
theorem readVal_update_outside (f : Nat) (P : Nat → Prop) (h : Heap) (a : Nat) (o : HObj)
    (ha : ¬ P a) (hcl : h.closed P) :
    ∀ v, valP P v → readVal f (h.update a o) v = readVal f h v := by
  have hag : ∀ b, P b → (h.update a o).find b = h.find b := by
    intro b hb
    exact Heap.find_update_ne _ _ (fun hba => ha (hba ▸ hb))
  exact (read_agree f P h (h.update a o) hag hcl).1

/-- Claim C4: a successful deep copy of a payload value is structurally
equal to its source at call time (both read back to the same tree `t`),
the call leaves the source untouched, and the two handles share no mutable
backing store: mutating any address of the copy's (fresh, `≥ h.next`)
region never changes the source's readback, and mutating any address of
the source's (old, `< h.next`) region never changes the copy's readback —
this covers every nested map and nested slice on either side. -/
theorem deepCopy_isolation (f : Nat) (h : Heap) (v v' : GoVal) (h' : Heap) (t : PVal)
    (hwf : h.wfB = true) (hv : valRefLt v h.next = true)
    (hread : readVal f h v = some t)
    (hcopy : deepCopyVal f h v = some (v', h')) :
    readVal f h' v' = some t
    ∧ readVal f h' v = some t
    ∧ (∀ a o, h.next ≤ a → readVal f (h'.update a o) v = some t)
    ∧ (∀ a o, a < h.next → readVal f (h'.update a o) v' = some t) := by
  have hWF := Heap.wfB_WF hwf
  have hvP := valRefLt_valP hv
  obtain ⟨post, fresh, readp⟩ := (copyMain f).1 h v v' h' hWF hvP hcopy
  have c1 : readVal f h' v' = some t := readp t hread
  have horig : readVal f h' v = readVal f h v :=
    (read_agree f (fun b => b < h.next) h h' post.pres hWF.2).1 v hvP
  have c2 : readVal f h' v = some t := by rw [horig, hread]
  refine ⟨c1, c2, ?_, ?_⟩
  · intro a o ha
    have hcl' : h'.closed (fun b => b < h.next) := by
      intro b ob hb hfind
      rw [post.pres b hb] at hfind
      exact hWF.2 b ob hb hfind
    have hfr := readVal_update_outside f (fun b => b < h.next) h' a o (by omega) hcl' v hvP
    rw [hfr]
    exact c2
  · intro a o ha
    have hclF : h'.closed (fun b => h.next ≤ b ∧ b < h'.next) := by
      intro b ob hb hfind
      exact post.closedFresh b ob hb.1 hfind
    have hfr := readVal_update_outside f (fun b => h.next ≤ b ∧ b < h'.next) h' a o
      (by omega) hclF v' fresh
    rw [hfr]
    exact c1

/-- A nested payload for exercising the deep copier: a map holding a
string and a pointer to a slice. -/
def c4Heap : Heap :=
  ⟨[(0, .hmap [("name", .str "Coco"), ("pets", .ref 1)]), (1, .hslice [.str "Bella"])], 2⟩

/-- The tree both the original payload and its copy read back to. -/
def c4Tree : PVal := .pMap [("name", .pStr "Coco"), ("pets", .pSlice [.pStr "Bella"])]

/-- The heap after copying `c4Heap`'s map at address 0: the copy lives in
the fresh addresses 2 (inner slice) and 3 (outer map). -/
def c4HeapCopied : Heap :=
  ⟨[(0, .hmap [("name", .str "Coco"), ("pets", .ref 1)]), (1, .hslice [.str "Bella"]),
    (2, .hslice [.str "Bella"]), (3, .hmap [("name", .str "Coco"), ("pets", .ref 2)])], 4⟩

theorem deepCopy_isolation_witness :
    c4Heap.wfB = true ∧ valRefLt (.ref 0) c4Heap.next = true
    ∧ readVal 10 c4Heap (.ref 0) = some c4Tree
    ∧ deepCopyVal 10 c4Heap (.ref 0) = some (.ref 3, c4HeapCopied)
    ∧ (readVal 10 c4HeapCopied (.ref 3) = some c4Tree
       ∧ readVal 10 c4HeapCopied (.ref 0) = some c4Tree
       ∧ (∀ a o, c4Heap.next ≤ a → readVal 10 (c4HeapCopied.update a o) (.ref 0) = some c4Tree)
       ∧ (∀ a o, a < c4Heap.next → readVal 10 (c4HeapCopied.update a o) (.ref 3) = some c4Tree)) :=
  ⟨by decide, by decide, by rfl, by rfl,
    deepCopy_isolation 10 c4Heap (.ref 0) (.ref 3) c4HeapCopied c4Tree
      (by decide) (by decide) (by rfl) (by rfl)⟩

/-! The session entity of `session.go` (the `Session` used by
`cookieStore` and `RedisStore`), its lock-guarded accessors and mutators,
and the request-side cookie accessor. -/

/-- The request-side view the store consumes: the cookies carried by the
incoming request, as name/value pairs. -/
structure Request where
  cookies : List (String × String)
deriving DecidableEq, Repr

/-- Go `r.Cookie(name)`: the value of the first cookie with that name, or
`none` for `http.ErrNoCookie`. -/
def reqCookie (r : Request) (name : String) : Option String := alookup r.cookies name

/-- Modelled from the spec: `isCookieNameValid` is called by every store's
`Get` but is not among the provided source files.  Per the spec's error
taxonomy, `InvalidNameError` arises when the "name contains characters
illegal for the exchange mechanism"; for HTTP cookies that means the name
must be a nonempty RFC 2616 token, i.e. consist of alphanumerics and the
token specials below. -/
def cookieTokenSpecials : List Char := "!#$%&*+-.^_`|~".toList ++ [Char.ofNat 39]

/-- A single character legal in a cookie name. -/
def isCookieTokenChar (c : Char) : Bool :=
  c.isAlphanum || cookieTokenSpecials.contains c

/-- Validity of a cookie name (see `cookieTokenSpecials`). -/
def isCookieNameValid (name : String) : Bool :=
  !name.isEmpty && name.toList.all isCookieTokenChar

/-- Go `Session` from `session.go`: name, id, freshness flag, expiry
bookkeeping timestamp, payload map and per-session cookie options (stored
as a value — `NewSession` takes `options Options` by value, so each
session owns its copy).  Payload values are drawn from the closed variant
set; keys are modelled as strings. -/
structure Session where
  name : String
  id : String
  isNew : Bool
  expiry : Time
  values : List (String × GoVal)
  options : Options
deriving DecidableEq, Repr

/-- Go `NewSession` from `session.go`: a fresh session is new, has an empty
payload and expires at `now + options.MaxAge` seconds. -/
def NewSession (name id : String) (options : Options) (now : Time) : Session :=
  { name, id, isNew := true, expiry := now + options.maxAge, values := [], options }

/-- Go `Session.SetIsNew`. -/
def Session.SetIsNew (s : Session) (b : Bool) : Session := { s with isNew := b }

/-- Go `Session.SetMaxAge`: sets `options.MaxAge` and recomputes
`expiry = now + seconds`. -/
def Session.SetMaxAge (s : Session) (seconds : Int) (now : Time) : Session :=
  { s with options := { s.options with maxAge := seconds }, expiry := now + seconds }

/-- Go `Session.SetCookiePath`. -/
def Session.SetCookiePath (s : Session) (p : String) : Session :=
  { s with options := { s.options with path := p } }

/-- Go `Session.SetCookieDomain`. -/
def Session.SetCookieDomain (s : Session) (d : String) : Session :=
  { s with options := { s.options with domain := d } }

/-- Go `Session.SetCookieSecure`. -/
def Session.SetCookieSecure (s : Session) (b : Bool) : Session :=
  { s with options := { s.options with secure := b } }

/-- Go `Session.SetCookieHttpOnly`. -/
def Session.SetCookieHttpOnly (s : Session) (b : Bool) : Session :=
  { s with options := { s.options with httpOnly := b } }

/-- Go `Session.SetCookieSameSite`. -/
def Session.SetCookieSameSite (s : Session) (ss : Nat) : Session :=
  { s with options := { s.options with sameSite := ss } }

/-- Go `Session.InsertValue`: `s.values[k] = v`. -/
def Session.InsertValue (s : Session) (k : String) (v : GoVal) : Session :=
  { s with values := aupsert s.values k v }

/-- Go `Session.ModifyValueByKey`: overwrites the value when the key exists,
otherwise leaves the session unchanged and returns the error. -/
def Session.ModifyValueByKey (s : Session) (k : String) (v : GoVal) :
    Session × Option String :=
  match alookup s.values k with
  | none => (s, some ("failed to set value, no such key:" ++ k))
  | some _ => ({ s with values := aupsert s.values k v }, none)

/-- Go `Session.GetOptions`: returns a copy of the options. -/
def Session.GetOptions (s : Session) : Options := s.options

/-- Go `Session.GetValueByKey`. -/
def Session.GetValueByKey (s : Session) (k : String) : Except String GoVal :=
  match alookup s.values k with
  | none => .error ("failed to get value, no suchkey:" ++ k)
  | some v => .ok v

/-- Claim C9: `NewSession` sets `expiry` to creation time plus the
configured max-age, `SetMaxAge m` recomputes it to `now + m` (and records
`m` in the options), and no other mutator of the session — freshness,
payload inserts and modifications, or any other cookie-attribute setter —
changes the expiry timestamp. -/
theorem session_expiry_only_from_maxage (name id : String) (o : Options) (now now2 : Time)
    (s : Session) (m : Int) (k p d : String) (v : GoVal) (b sec ho : Bool) (ss : Nat) :
    (NewSession name id o now).expiry = now + o.maxAge
    ∧ (s.SetMaxAge m now2).expiry = now2 + m
    ∧ (s.SetMaxAge m now2).options.maxAge = m
    ∧ (s.SetIsNew b).expiry = s.expiry
    ∧ (s.InsertValue k v).expiry = s.expiry
    ∧ (s.ModifyValueByKey k v).1.expiry = s.expiry
    ∧ (s.SetCookiePath p).expiry = s.expiry
    ∧ (s.SetCookieDomain d).expiry = s.expiry
    ∧ (s.SetCookieSecure sec).expiry = s.expiry
    ∧ (s.SetCookieHttpOnly ho).expiry = s.expiry
    ∧ (s.SetCookieSameSite ss).expiry = s.expiry := by
  refine ⟨rfl, rfl, rfl, rfl, rfl, ?_, rfl, rfl, rfl, rfl, rfl⟩
  unfold Session.ModifyValueByKey
  cases alookup s.values k <;> rfl

/-! The `cookieStore` of `store.go` (both revisions present in the file)
and the shared id-generation retry loop. -/

/-- The id-generation retry loop shared by `memoryStore.generateID` and
`cookieStore.generateID` in `store.go` and by part_006's `generateID`
(textually identical up to the receiver): draw a candidate id from the
random-string generator, fail on a generator error, retry while the
candidate is already a key of the table, and return the first unoccupied
candidate.  `GenerateRandomString` itself is not among the provided source
files, so the generator is abstracted as an oracle: the list of its
successive outcomes.  The Go loop draws unboundedly; the embedding reports
exhaustion of the finite oracle as a generation error. -/
def storeGenID {α : Type} (sessions : List (String × α)) :
    List (Except String String) → Except String String
  | [] => .error "failed to generate session id: entropy source unavailable"
  | .error e :: _ => .error e
  | .ok id :: rest =>
    if (alookup sessions id).isSome then storeGenID sessions rest else .ok id

/-- Default options installed by `newCookieStore` / `newMemoryStore`:
`Path "/"`, `MaxAge 60`, `SameSite http.SameSiteDefaultMode`. -/
def defaultOptions0 : Options :=
  { path := "/", domain := "", maxAge := 60, secure := false, httpOnly := false, sameSite := 0 }

/-- Go `cookieStore` state: the id-to-session table and the store options. -/
structure CookieStore where
  sessions : List (String × Session)
  options : Options
deriving DecidableEq, Repr

/-- Outcome of a store call: Go's `(session, error)` pair — `ok` also
carries the table state after the call, since a hit mutates the stored
session in place — and `fault`, a nil-pointer dereference (runtime panic),
which returns nothing at all. -/
inductive GetRes where
  | ok (s : Session) (st : CookieStore)
  | err (e : String)
  | fault
deriving DecidableEq, Repr

/-- Go `cookieStore.New` (first revision in `store.go`): generate a fresh id,
build a `NewSession` with a copy of the store options, and save it into
the table keyed by its id. -/
def cookieStore.New (st : CookieStore) (name : String)
    (rng : List (Except String String)) (now : Time) : GetRes :=
  match storeGenID st.sessions rng with
  | .error e => .err e
  | .ok id =>
    let session := NewSession name id st.options now
    .ok session { st with sessions := aupsert st.sessions id session }

/-- Go `cookieStore.Get` (first revision in `store.go`, lines 59-77): reject
an invalid name; on a cookie whose value is a stored id, call
`session.SetIsNew(false)` on the stored session — mutating it in place —
and return that same session; otherwise fall through to `New`. -/
def cookieStore.Get (st : CookieStore) (r : Request) (name : String)
    (rng : List (Except String String)) (now : Time) : GetRes :=
  if isCookieNameValid name = false then
    .err ("sessions: invalid character in cookie name: " ++ name)
  else
    match reqCookie r name with
    | some cv =>
      match alookup st.sessions cv with
      | some session =>
        let session2 := session.SetIsNew false
        .ok session2 { st with sessions := aupsert st.sessions cv session2 }
      | none => cookieStore.New st name rng now
    | none => cookieStore.New st name rng now

/-- Go `cookieStore.save` (first revision in `store.go`, lines 518-522):
store the session under its id — nothing else; in particular no expiry
bookkeeping is recomputed. -/
def cookieStore.save (st : CookieStore) (session : Session) : CookieStore :=
  { st with sessions := aupsert st.sessions session.id session }

/-- Go `cookieStore.New` of the second revision in `store.go` (lines
500-507): builds the session but does not insert it into the table. -/
def cookieStoreV2.New (st : CookieStore) (name : String)
    (rng : List (Except String String)) (now : Time) : GetRes :=
  match storeGenID st.sessions rng with
  | .error e => .err e
  | .ok id => .ok (NewSession name id st.options now) st

/-- Go `cookieStore.Get` of the second revision in `store.go` (lines
480-498): after `session, ok := s.sessions[c.Value]` it calls
`session.SetIsNew(false)` before checking `ok`; when the id is absent,
`session` is the nil `*Session` and the call dereferences it — a runtime
panic, embedded as `fault`. -/
def cookieStoreV2.Get (st : CookieStore) (r : Request) (name : String)
    (rng : List (Except String String)) (now : Time) : GetRes :=
  if isCookieNameValid name = false then
    .err ("sessions: invalid character in cookie name: " ++ name)
  else
    match reqCookie r name with
    | some cv =>
      match alookup st.sessions cv with
      | none => .fault
      | some session =>
        let session2 := session.SetIsNew false
        .ok session2 { st with sessions := aupsert st.sessions cv session2 }
    | none => cookieStoreV2.New st name rng now

/-- A stored, still-fresh session under id `"abc"`. -/
def c1Sess : Session :=
  { name := "sid", id := "abc", isNew := true, expiry := 60, values := [],
    options := defaultOptions0 }

/-- The same session with the freshness flag flipped (what the hit stores
back and returns). -/
def c1SessHit : Session := { c1Sess with isNew := false }

/-- A cookie store holding `c1Sess` under `"abc"`. -/
def c1Store : CookieStore := ⟨[("abc", c1Sess)], defaultOptions0⟩

/-- The store after the hit: the stored session itself was mutated. -/
def c1StoreAfter : CookieStore := ⟨[("abc", c1SessHit)], defaultOptions0⟩

/-- A request presenting the stored id `"abc"` for cookie `"sid"`. -/
def c1Req : Request := ⟨[("sid", "abc")]⟩

/-- Counterexample to claim C1 as stated for every lookup-or-create call:
`cookieStore.Get` on a hit does not return an isolated copy and does not
leave the stored original untouched — the returned session is exactly the
stored table entry, and the stored entry's freshness flag is flipped from
`true` to `false` by the call. -/
theorem cookieStore_hit_mutates_stored :
    cookieStore.Get c1Store c1Req "sid" [] 0 = .ok c1SessHit c1StoreAfter
    ∧ (alookup c1Store.sessions "abc").map Session.isNew = some true
    ∧ (alookup c1StoreAfter.sessions "abc").map Session.isNew = some false
    ∧ alookup c1StoreAfter.sessions "abc" = some c1SessHit := by
  refine ⟨?_, by decide, by decide, by decide⟩
  decide

/-- A session whose expiry bookkeeping (`5`) is stale relative to a save
performed at time `100` with `maxAge = 60`. -/
def c5Sess : Session :=
  { name := "sid", id := "abc", isNew := false, expiry := 5, values := [],
    options := defaultOptions0 }

/-- A cookie store to save `c5Sess` into. -/
def c5Store : CookieStore := ⟨[], defaultOptions0⟩

/-- Counterexample to claim C5 as stated for every save: `cookieStore.save`
takes no clock at all and stores the session with its expiry bookkeeping
untouched — after a save at time `100` of a session with `maxAge = 60` the
entry's expiry is still `5`, not `100 + 60`. -/
theorem cookieStore_save_no_expiry_recompute :
    (alookup (cookieStore.save c5Store c5Sess).sessions "abc").map Session.expiry = some 5
    ∧ c5Sess.options.maxAge = 60
    ∧ (5 : Int) ≠ 100 + 60 := by
  refine ⟨by decide, by decide, by decide⟩

/-- A cookie store that does not contain the id `"missing"`. -/
def c10Store : CookieStore := ⟨[("abc", c1Sess)], defaultOptions0⟩

/-- A request presenting the unknown id `"missing"` for cookie `"sid"`. -/
def c10Req : Request := ⟨[("sid", "missing")]⟩

/-- Claim C10's failing input evaluated: the second-revision
`cookieStore.Get`, on a request whose cookie value is not a table key,
dereferences the absent entry (`session.SetIsNew(false)` on a nil
`*Session`) instead of falling through to `New` — a nil-pointer panic,
embedded as `fault`. -/
theorem cookieStoreV2_get_missing_entry_fault :
    cookieStoreV2.Get c10Store c10Req "sid" [] 0 = .fault
    ∧ alookup c10Store.sessions "missing" = none := by
  refine ⟨by decide, by decide⟩

/-! The deep-copying `memoryStore` (first revision in `store.go`). -/

/-- Modelled from the spec: the `MySession` entity used by `memoryStore`
is referenced throughout `store.go` but its definition is not among the
provided source files.  Per the spec's data model (section 3) it carries
the slot name, the id, the payload map (a reference), the per-session
cookie configuration, the freshness flag and the expiry bookkeeping
timestamp. -/
structure MySession where
  name : String
  id : String
  values : GoVal
  options : Options
  isNew : Bool
  expiry : Time
deriving DecidableEq, Repr

/-- Modelled from the spec: `NewMySession` — a newly created session is
fresh (`isFresh = true` until the first hit), owns a freshly allocated
empty payload map, a copy of the store's cookie configuration (Go passes
`s.Options.MaxAge` and immediately copies `*s.Options` over), and expires
at `now + maxAge`. -/
def NewMySession (name id : String) (options : Options) (now : Time) (h : Heap) :
    MySession × Heap :=
  ({ name, id, values := .ref (h.alloc (.hmap [])).1, options, isNew := true,
     expiry := now + options.maxAge }, (h.alloc (.hmap [])).2)

/-- Go `memoryStore` state: the id-to-session table and the store options. -/
structure MemStore where
  sessions : List (String × MySession)
  options : Options
deriving DecidableEq, Repr

/-- Go `memoryStore.New` (store.go lines 192-217): generate a fresh id, build
a new session; if the request carries a cookie whose value is a stored id,
deep-copy the stored payload into the new session (propagating a copy
failure), copy the stored options, take over the stored id and clear the
freshness flag.  The table itself is never written (that is `save`'s job),
and the stored session is only read. -/
def memoryStore.New (st : MemStore) (h : Heap) (r : Request) (name : String)
    (rng : List (Except String String)) (now : Time) (fuel : Nat) :
    Except String (MySession × Heap) :=
  match storeGenID st.sessions rng with
  | .error e => .error e
  | .ok id =>
    match reqCookie r name with
    | none => .ok (NewMySession name id st.options now h)
    | some cv =>
      match alookup st.sessions cv with
      | none => .ok (NewMySession name id st.options now h)
      | some se =>
        match deepCopyVal fuel (NewMySession name id st.options now h).2 se.values with
        | none => .error "failed to copy map"
        | some (v2, h2) =>
          .ok ({ (NewMySession name id st.options now h).1 with
                 values := v2, options := se.options, id := cv, isNew := false }, h2)

/-- Go `memoryStore.Get` (store.go lines 184-189): reject an invalid cookie
name, otherwise delegate to `New`. -/
def memoryStore.Get (st : MemStore) (h : Heap) (r : Request) (name : String)
    (rng : List (Except String String)) (now : Time) (fuel : Nat) :
    Except String (MySession × Heap) :=
  if isCookieNameValid name = false then
    .error ("sessions: invalid character in cookie name: " ++ name)
  else memoryStore.New st h r name rng now fuel

/-- Go `memoryStore.save` (store.go lines 228-234): recompute the session's
expiry bookkeeping as `now + MaxAge` seconds and store the session under
its id (the Go code mutates the session's `expiry` field through the
pointer it stores, so the updated session is both stored and returned). -/
def memoryStore.save (st : MemStore) (session : MySession) (now : Time) :
    MemStore × MySession :=
  let session2 : MySession := { session with expiry := now + session.options.maxAge }
  ({ st with sessions := aupsert st.sessions session.id session2 }, session2)

/-- Claim C5, amended: both stores upsert the table entry keyed by
`session.id` — after the save the entry exists, any prior entry under the
same id is overwritten (last-writer-wins) and every other key is
untouched — and the deep-copying `memoryStore.save` recomputes the expiry
bookkeeping as `now + maxAge` at save time; the `cookieStore.save`
variant, however, stores the session with its expiry bookkeeping exactly
as it was (it is recomputed only at creation and `SetMaxAge` time). -/
theorem save_upserts_memory_recomputes_expiry (st : MemStore) (e : MySession) (now : Time)
    (stc : CookieStore) (s : Session) :
    alookup (memoryStore.save st e now).1.sessions e.id
        = some { e with expiry := now + e.options.maxAge }
    ∧ (∀ k, k ≠ e.id → alookup (memoryStore.save st e now).1.sessions k = alookup st.sessions k)
    ∧ alookup (cookieStore.save stc s).sessions s.id = some s
    ∧ (∀ k, k ≠ s.id → alookup (cookieStore.save stc s).sessions k = alookup stc.sessions k) := by
  unfold memoryStore.save cookieStore.save
  exact ⟨alookup_aupsert_self _ _ _, fun k hk => alookup_aupsert_ne _ _ _ _ hk,
    alookup_aupsert_self _ _ _, fun k hk => alookup_aupsert_ne _ _ _ _ hk⟩

/-- A stored session for exercising `memoryStore.save`. -/
def w5Entry : MySession :=
  { name := "sid", id := "abc", values := .nil, options := defaultOptions0,
    isNew := false, expiry := 5 }

/-- An unrelated second entry. -/
def w5Entry2 : MySession := { w5Entry with id := "other" }

/-- A memory store holding `w5Entry` and one unrelated entry. -/
def w5Store : MemStore := ⟨[("abc", w5Entry), ("other", w5Entry2)], defaultOptions0⟩

theorem save_upserts_memory_recomputes_expiry_witness :
    ("other" : String) ≠ w5Entry.id
    ∧ alookup (memoryStore.save w5Store w5Entry 100).1.sessions w5Entry.id
        = some { w5Entry with expiry := 100 + w5Entry.options.maxAge }
    ∧ alookup (memoryStore.save w5Store w5Entry 100).1.sessions "other"
        = alookup w5Store.sessions "other"
    ∧ alookup (cookieStore.save c5Store c5Sess).sessions c5Sess.id = some c5Sess
    ∧ alookup (cookieStore.save c5Store c5Sess).sessions "zzz"
        = alookup c5Store.sessions "zzz" := by
  have h := save_upserts_memory_recomputes_expiry w5Store w5Entry 100 c5Store c5Sess
  exact ⟨by decide, h.1, h.2.1 "other" (by decide), h.2.2.1,
    h.2.2.2 "zzz" (by decide)⟩

/-- The id returned by the retry loop is never a current key. -/
theorem storeGenID_not_mem {α : Type} (sessions : List (String × α)) :
    ∀ (rng : List (Except String String)) (id : String),
      storeGenID sessions rng = .ok id → alookup sessions id = none := by
  intro rng
  induction rng with
  | nil => intro id hok; simp [storeGenID] at hok
  | cons d rest ih =>
    intro id hok
    cases d with
    | error e => simp [storeGenID] at hok
    | ok cand =>
      simp only [storeGenID] at hok
      by_cases hc : (alookup sessions cand).isSome
      · rw [if_pos hc] at hok
        exact ih id hok
      · rw [if_neg hc] at hok
        simp only [Except.ok.injEq] at hok
        subst hok
        exact Option.not_isSome_iff_eq_none.mp hc

/-- Claim C7: whenever the id-generation retry loop returns an id, that id
is not currently a key of the table (it was checked against the table);
hence inserting the new session under it preserves the invariant that
every id maps to exactly one live session: the keys stay pairwise
distinct, the new id maps to exactly the new session, and every other
entry is untouched. -/
theorem generateID_fresh_preserves_unique {α : Type} (sessions : List (String × α))
    (rng : List (Except String String)) (id : String)
    (hok : storeGenID sessions rng = .ok id) :
    alookup sessions id = none
    ∧ (keysNodup sessions → ∀ e : α, keysNodup (aupsert sessions id e)
        ∧ alookup (aupsert sessions id e) id = some e
        ∧ ∀ k, k ≠ id → alookup (aupsert sessions id e) k = alookup sessions k) := by
  refine ⟨storeGenID_not_mem sessions rng id hok, fun hnd e => ?_⟩
  exact ⟨keysNodup_aupsert _ _ hnd, alookup_aupsert_self _ _ _,
    fun k hk => alookup_aupsert_ne _ _ _ _ hk⟩

/-- A one-entry table whose key collides with the oracle's first draw. -/
def w7Tbl : List (String × MySession) := [("a", w5Entry)]

theorem generateID_fresh_preserves_unique_witness :
    storeGenID w7Tbl [.ok "a", .ok "b"] = .ok "b"
    ∧ keysNodup w7Tbl
    ∧ ("a" : String) ≠ "b"
    ∧ (alookup w7Tbl "b" = none
       ∧ keysNodup (aupsert w7Tbl "b" w5Entry)
       ∧ alookup (aupsert w7Tbl "b" w5Entry) "b" = some w5Entry
       ∧ alookup (aupsert w7Tbl "b" w5Entry) "a" = alookup w7Tbl "a") := by
  have h := generateID_fresh_preserves_unique w7Tbl [.ok "a", .ok "b"] "b" rfl
  have h2 := h.2 (by unfold keysNodup; decide) w5Entry
  exact ⟨rfl, by unfold keysNodup; decide, by decide, h.1, h2.1, h2.2.1,
    h2.2.2 "a" (by decide)⟩

/-- Claim C6: a lookup-or-create call yields exactly one of a session or
an error (the embedding's `Except` mirrors the Go convention `(nil, err)`
/ `(session, nil)` that every return of these functions obeys): an
invalid cookie name yields the `InvalidNameError` and no session; a
failure of the id generator is propagated; a failure of the deep copy on
the hit path is propagated; a session is only ever produced for a valid
name.  The cited `cookieStore.Get` likewise never faults: every outcome
is a session or an error. -/
theorem lookupOrCreate_session_xor_error (st : MemStore) (h : Heap) (r : Request)
    (name : String) (rng : List (Except String String)) (now : Time) (fuel : Nat) :
    (isCookieNameValid name = false →
       memoryStore.Get st h r name rng now fuel
         = .error ("sessions: invalid character in cookie name: " ++ name))
    ∧ (∀ e rest, isCookieNameValid name = true → rng = .error e :: rest →
       memoryStore.Get st h r name rng now fuel = .error e)
    ∧ (∀ id rest cv se, isCookieNameValid name = true → rng = .ok id :: rest →
       alookup st.sessions id = none → reqCookie r name = some cv →
       alookup st.sessions cv = some se →
       deepCopyVal fuel (NewMySession name id st.options now h).2 se.values = none →
       memoryStore.Get st h r name rng now fuel = .error "failed to copy map")
    ∧ (∀ s h2, memoryStore.Get st h r name rng now fuel = .ok (s, h2) →
       isCookieNameValid name = true)
    ∧ (∀ stc : CookieStore, cookieStore.Get stc r name rng now ≠ .fault) := by
  refine ⟨?_, ?_, ?_, ?_, ?_⟩
  · intro hn
    simp [memoryStore.Get, hn]
  · intro e rest hn hrng
    subst hrng
    simp [memoryStore.Get, hn, memoryStore.New, storeGenID]
  · intro id rest cv se hn hrng hidn hcv hse hcopy
    subst hrng
    simp [memoryStore.Get, hn, memoryStore.New, storeGenID, hidn, hcv, hse, hcopy]
  · intro s h2 hok
    by_cases hn : isCookieNameValid name = true
    · exact hn
    · have hn' : isCookieNameValid name = false := by
        cases hb : isCookieNameValid name
        · rfl
        · exact absurd hb hn
      simp [memoryStore.Get, hn'] at hok
  · intro stc
    unfold cookieStore.Get
    by_cases hn : isCookieNameValid name = false
    · simp [hn]
    · rw [if_neg hn]
      cases hrc : reqCookie r name with
      | none =>
        simp only [hrc]
        unfold cookieStore.New
        cases storeGenID stc.sessions rng <;> simp
      | some cv =>
        simp only [hrc]
        cases hl : alookup stc.sessions cv with
        | none =>
          simp only [hl]
          unfold cookieStore.New
          cases storeGenID stc.sessions rng <;> simp
        | some sess => simp [hl]

/-- An invalid (space-bearing) cookie name for the C6 witness. -/
def w6BadName : String := "bad name"

theorem lookupOrCreate_session_xor_error_witness :
    isCookieNameValid w6BadName = false
    ∧ memoryStore.Get w5Store c4Heap c1Req w6BadName [] 0 10
        = .error ("sessions: invalid character in cookie name: " ++ w6BadName)
    ∧ memoryStore.Get w5Store c4Heap c1Req "sid" [.error "entropy gone"] 0 10
        = .error "entropy gone"
    ∧ memoryStore.Get w5Store c4Heap c1Req "sid" [.ok "fresh"] 0 0
        = .error "failed to copy map"
    ∧ cookieStore.Get c10Store c10Req "sid" [.ok "fresh"] 0 ≠ .fault := by
  refine ⟨by decide, ?_, ?_, ?_, ?_⟩
  · exact (lookupOrCreate_session_xor_error w5Store c4Heap c1Req w6BadName [] 0 10).1
      (by decide)
  · exact (lookupOrCreate_session_xor_error w5Store c4Heap c1Req "sid"
      [.error "entropy gone"] 0 10).2.1 "entropy gone" [] (by decide) rfl
  · exact (lookupOrCreate_session_xor_error w5Store c4Heap c1Req "sid"
      [.ok "fresh"] 0 0).2.2.1 "fresh" [] "abc" w5Entry (by decide) rfl (by decide)
      (by decide) (by decide) rfl
  · exact (lookupOrCreate_session_xor_error w5Store c4Heap c10Req "sid"
      [.ok "fresh"] 0 10).2.2.2.2 c10Store

/-- The first-revision `memoryStore` does satisfy the freshness discipline
of claim C2 (its hit branch looks up the cookie value `c.Value`): with a
valid name, a call that presents a stored id returns `IsNew = false`,
while a call with no cookie or an unknown id returns `IsNew = true`. -/
theorem memoryStore_get_freshness (st : MemStore) (h : Heap) (r : Request) (name : String)
    (rng : List (Except String String)) (now : Time) (fuel : Nat)
    (hn : isCookieNameValid name = true) :
    (∀ cv se s h2, reqCookie r name = some cv → alookup st.sessions cv = some se →
       memoryStore.Get st h r name rng now fuel = .ok (s, h2) →
       s.isNew = false ∧ s.id = cv)
    ∧ (∀ s h2, reqCookie r name = none →
       memoryStore.Get st h r name rng now fuel = .ok (s, h2) → s.isNew = true)
    ∧ (∀ cv s h2, reqCookie r name = some cv → alookup st.sessions cv = none →
       memoryStore.Get st h r name rng now fuel = .ok (s, h2) → s.isNew = true) := by
  refine ⟨?_, ?_, ?_⟩
  · intro cv se s h2 hcv hse hok
    unfold memoryStore.Get at hok
    rw [if_neg (by simp [hn])] at hok
    unfold memoryStore.New at hok
    cases hgen : storeGenID st.sessions rng with
    | error e => simp [hgen] at hok
    | ok id =>
      simp only [hgen, hcv, hse] at hok
      cases hcopy : deepCopyVal fuel (NewMySession name id st.options now h).2 se.values with
      | none => simp [hcopy] at hok
      | some pr =>
        obtain ⟨v2, h2x⟩ := pr
        simp only [hcopy, Except.ok.injEq, Prod.mk.injEq] at hok
        obtain ⟨hs, _⟩ := hok
        subst hs
        exact ⟨rfl, rfl⟩
  · intro s h2 hrc hok
    unfold memoryStore.Get at hok
    rw [if_neg (by simp [hn])] at hok
    unfold memoryStore.New at hok
    cases hgen : storeGenID st.sessions rng with
    | error e => simp [hgen] at hok
    | ok id =>
      simp only [hgen, hrc, NewMySession, Except.ok.injEq, Prod.mk.injEq] at hok
      obtain ⟨hs, _⟩ := hok
      subst hs
      rfl
  · intro cv s h2 hcv hnone hok
    unfold memoryStore.Get at hok
    rw [if_neg (by simp [hn])] at hok
    unfold memoryStore.New at hok
    cases hgen : storeGenID st.sessions rng with
    | error e => simp [hgen] at hok
    | ok id =>
      simp only [hgen, hcv, hnone, NewMySession, Except.ok.injEq, Prod.mk.injEq] at hok
      obtain ⟨hs, _⟩ := hok
      subst hs
      rfl

/-- Claim C1, amended to the deep-copying `memoryStore` (its lookup is the
claim's spec source; the `cookieStore` variant instead hands out the
stored session itself and flips its stored freshness flag, see the
counterexample): on a hit the returned session has `IsNew = false`, keeps
the presented id, and its payload is an isolated deep copy — it reads
back to the same tree `t` as the stored payload, the stored payload still
reads back to `t` after the call (the table itself is never written by
`Get`/`New`, so the stored entry and its flags are untouched by
construction), mutating any address of the fresh region (which contains
every part of the copy) leaves the stored payload at `t`, and mutating
any address of the old region (which contains every part of the stored
payload) leaves the copy at `t`. -/
theorem memoryStore_hit_isolated_copy
    (st : MemStore) (h : Heap) (r : Request) (name : String)
    (rng : List (Except String String)) (now : Time) (fuel : Nat)
    (cv : String) (se : MySession) (s : MySession) (h2 : Heap) (t : PVal)
    (hwf : h.wfB = true)
    (hcv : reqCookie r name = some cv)
    (hse : alookup st.sessions cv = some se)
    (hvb : valRefLt se.values h.next = true)
    (hread : readVal fuel h se.values = some t)
    (hok : memoryStore.Get st h r name rng now fuel = .ok (s, h2)) :
    s.isNew = false ∧ s.id = cv
    ∧ readVal fuel h2 s.values = some t
    ∧ readVal fuel h2 se.values = some t
    ∧ (∀ a o, h.next ≤ a → readVal fuel (h2.update a o) se.values = some t)
    ∧ (∀ a o, a < h.next → readVal fuel (h2.update a o) s.values = some t) := by
  have hWF := Heap.wfB_WF hwf
  have hvP := valRefLt_valP hvb
  unfold memoryStore.Get at hok
  by_cases hn : isCookieNameValid name = false
  · rw [if_pos hn] at hok
    exact absurd hok (by simp)
  · rw [if_neg hn] at hok
    unfold memoryStore.New at hok
    cases hgen : storeGenID st.sessions rng with
    | error e => simp [hgen] at hok
    | ok id =>
      simp only [hgen, hcv, hse] at hok
      cases hcopy : deepCopyVal fuel (NewMySession name id st.options now h).2 se.values with
      | none => simp [hcopy] at hok
      | some pr =>
        obtain ⟨v2, h2x⟩ := pr
        simp only [hcopy, Except.ok.injEq, Prod.mk.injEq] at hok
        obtain ⟨hs, hh⟩ := hok
        subst hs
        subst hh
        have hcopy' : deepCopyVal fuel (h.alloc (.hmap [])).2 se.values = some (v2, h2x) :=
          hcopy
        have post0 : CopyPost h (h.alloc (.hmap [])).2 :=
          (CopyPost.refl hWF).allocStep (.hmap [])
            (fun kv hkv => absurd hkv (List.not_mem_nil _))
        have hWF1 : (h.alloc (.hmap [])).2.WF := ⟨post0.domLt, post0.closedLt⟩
        have hvP1 : valP (fun b => b < (h.alloc (.hmap [])).2.next) se.values :=
          valP_mono (fun b hb => Nat.lt_of_lt_of_le hb post0.nle) hvP
        have hread1 : readVal fuel (h.alloc (.hmap [])).2 se.values = some t := by
          have heq := (read_agree fuel (fun b => b < h.next) h (h.alloc (.hmap [])).2
            post0.pres hWF.2).1 se.values hvP
          rw [heq]
          exact hread
        obtain ⟨post1, fresh1, read1⟩ :=
          (copyMain fuel).1 _ se.values v2 h2x hWF1 hvP1 hcopy'
        have post := post0.trans post1
        have c3 : readVal fuel h2x v2 = some t := read1 t hread1
        have c4 : readVal fuel h2x se.values = some t := by
          have heq := (read_agree fuel (fun b => b < h.next) h h2x post.pres hWF.2).1
            se.values hvP
          rw [heq]
          exact hread
        refine ⟨rfl, rfl, c3, c4, ?_, ?_⟩
        · intro a o ha
          have hcl2 : h2x.closed (fun b => b < h.next) := by
            intro b ob hb hfind
            rw [post.pres b hb] at hfind
            exact hWF.2 b ob hb hfind
          rw [readVal_update_outside fuel (fun b => b < h.next) h2x a o (by omega)
            hcl2 se.values hvP]
          exact c4
        · intro a o ha
          show readVal fuel (h2x.update a o) v2 = some t
          have hclF : h2x.closed
              (fun b => (h.alloc (.hmap [])).2.next ≤ b ∧ b < h2x.next) :=
            fun b ob hb hfind => post1.closedFresh b ob hb.1 hfind
          have hna : ¬((h.alloc (.hmap [])).2.next ≤ a ∧ a < h2x.next) := by
            simp only [Heap.next_alloc]
            omega
          rw [readVal_update_outside fuel
            (fun b => (h.alloc (.hmap [])).2.next ≤ b ∧ b < h2x.next) h2x a o hna
            hclF v2 fresh1]
          exact c3

/-- A stored session whose payload is the nested map at address 0 of
`c4Heap`. -/
def w1Entry : MySession :=
  { name := "sid", id := "abc", values := .ref 0, options := defaultOptions0,
    isNew := true, expiry := 60 }

/-- A memory store holding `w1Entry` under id `"abc"`. -/
def w1Store : MemStore := ⟨[("abc", w1Entry)], defaultOptions0⟩

/-- The session the hit returns: freshness cleared, presented id, payload
deep-copied to the fresh address 4. -/
def w1Hit : MySession :=
  { name := "sid", id := "abc", values := .ref 4, options := defaultOptions0,
    isNew := false, expiry := 60 }

/-- The heap after the hit: address 2 is the discarded empty map of the
pre-built fresh session, addresses 3 and 4 hold the deep copy; addresses
0 and 1 (the stored payload) are untouched. -/
def w1HeapAfter : Heap :=
  ⟨[(0, .hmap [("name", .str "Coco"), ("pets", .ref 1)]), (1, .hslice [.str "Bella"]),
    (2, .hmap []), (3, .hslice [.str "Bella"]),
    (4, .hmap [("name", .str "Coco"), ("pets", .ref 3)])], 5⟩

theorem memoryStore_hit_isolated_copy_witness :
    c4Heap.wfB = true
    ∧ reqCookie c1Req "sid" = some "abc"
    ∧ alookup w1Store.sessions "abc" = some w1Entry
    ∧ valRefLt w1Entry.values c4Heap.next = true
    ∧ readVal 10 c4Heap w1Entry.values = some c4Tree
    ∧ memoryStore.Get w1Store c4Heap c1Req "sid" [.ok "fresh"] 0 10
        = .ok (w1Hit, w1HeapAfter)
    ∧ (w1Hit.isNew = false ∧ w1Hit.id = "abc"
       ∧ readVal 10 w1HeapAfter w1Hit.values = some c4Tree
       ∧ readVal 10 w1HeapAfter w1Entry.values = some c4Tree
       ∧ (∀ a o, c4Heap.next ≤ a →
           readVal 10 (w1HeapAfter.update a o) w1Entry.values = some c4Tree)
       ∧ (∀ a o, a < c4Heap.next →
           readVal 10 (w1HeapAfter.update a o) w1Hit.values = some c4Tree)) := by
  refine ⟨by decide, by rfl, by decide, by decide, by rfl, by rfl, ?_⟩
  exact memoryStore_hit_isolated_copy w1Store c4Heap c1Req "sid" [.ok "fresh"] 0 10
    "abc" w1Entry w1Hit w1HeapAfter c4Tree (by decide) rfl (by decide) (by decide) rfl rfl

/-! The older `memoryStore` revision of part_006 (sessionInfo-based), its
eviction sweep, and the random generators. -/

/-- Go `Session` of the second revision of `session.go` (the one part_006's
store uses): name, id, payload map, options, freshness flag. -/
structure PSession where
  name : String
  id : String
  values : GoVal
  options : Options
  isNew : Bool
deriving DecidableEq, Repr

/-- Go `sessionInfo`: pairs the stored session with the expiry bookkeeping
timestamp the eviction sweep reads. -/
structure SessionInfo where
  session : PSession
  expiresTimestamp : Time
deriving DecidableEq, Repr

/-- part_006 `memoryStore` state. -/
structure PStore where
  sessions : List (String × SessionInfo)
  options : Options
deriving DecidableEq, Repr

/-- Go `NewSession` of the second revision of `session.go`, combined with the
`*session.Options = *s.Options` copy its caller performs immediately: a
fresh empty payload map, `IsNew = true`, a copy of the store options. -/
def newPSession (name id : String) (options : Options) (h : Heap) : PSession × Heap :=
  ({ name, id, values := .ref (h.alloc (.hmap [])).1, options, isNew := true },
   (h.alloc (.hmap [])).2)

/-- Go `memoryStore.New` of part_006 (lines 82-107).  The hit test is
embedded exactly as written in the source: `sInfo, ok := s.sessions[id]`
reads the freshly generated `id`, not the cookie value `c.Value`. -/
def part006.New (st : PStore) (h : Heap) (r : Request) (name : String)
    (rng : List (Except String String)) (fuel : Nat) :
    Except String (PSession × Heap) :=
  match storeGenID st.sessions rng with
  | .error e => .error e
  | .ok id =>
    match reqCookie r name with
    | none => .ok (newPSession name id st.options h)
    | some cv =>
      match alookup st.sessions id with
      | none => .ok (newPSession name id st.options h)
      | some sInfo =>
        match deepCopyVal fuel (newPSession name id st.options h).2 sInfo.session.values with
        | none => .error "failed to copy map"
        | some (v2, h2) =>
          .ok ({ (newPSession name id st.options h).1 with
                 values := v2, options := sInfo.session.options, id := cv,
                 isNew := false }, h2)

/-- Go `memoryStore.Get` of part_006: reject an invalid name, delegate to
`New`. -/
def part006.Get (st : PStore) (h : Heap) (r : Request) (name : String)
    (rng : List (Except String String)) (fuel : Nat) :
    Except String (PSession × Heap) :=
  if isCookieNameValid name = false then
    .error ("sessions: invalid character in cookie name: " ++ name)
  else part006.New st h r name rng fuel

/-- A session stored under id `"storedid"`. -/
def c2Stored : PSession :=
  { name := "sid", id := "storedid", values := .ref 0, options := defaultOptions0,
    isNew := false }

/-- A part_006 store holding `"storedid"`, far from expiry. -/
def c2Store : PStore := ⟨[("storedid", ⟨c2Stored, 1000⟩)], defaultOptions0⟩

/-- A request presenting the stored id. -/
def c2Req : Request := ⟨[("sid", "storedid")]⟩

/-- The heap backing the stored payload. -/
def c2Heap : Heap := ⟨[(0, .hmap [])], 1⟩

/-- Claim C2's failing input evaluated on part_006's store: the table
holds the presented id `"storedid"`, yet the second call returns a
session with `IsNew = true` — the hit test reads `s.sessions[id]` with
the freshly generated id, which the retry loop guarantees is absent, so
the hit branch can never fire (the first-revision store, which reads
`s.sessions[c.Value]`, satisfies the claim: `memoryStore_get_freshness`). -/
theorem part006_second_lookup_still_fresh :
    (alookup c2Store.sessions "storedid").isSome = true
    ∧ reqCookie c2Req "sid" = some "storedid"
    ∧ part006.Get c2Store c2Heap c2Req "sid" [.ok "freshid"] 10
        = .ok ({ name := "sid", id := "freshid", values := .ref 1,
                 options := defaultOptions0, isNew := true },
               ⟨[(0, .hmap []), (1, .hmap [])], 2⟩) := by
  refine ⟨by decide, by rfl, by rfl⟩

/-- One pass of `memoryStore.monitorExpiredSessions` (second revision of
`store.go`, lines 431-443; `cookieStore.monitorExpiredSessions` and
part_006/007's `deleteExpiredSessions` are identical): for every entry,
`if info.expiresTimestamp >= time.Now().Unix()` the entry is deleted, so
exactly the entries with `expiresTimestamp < now` survive. -/
def monitorExpiredTick (sessions : List (String × SessionInfo)) (now : Time) :
    List (String × SessionInfo) :=
  sessions.filter (fun kv => !(decide (kv.2.expiresTimestamp ≥ now)))

/-- An entry whose expiry (200) is strictly in the future at time 100. -/
def c3Live : SessionInfo := ⟨c2Stored, 200⟩

/-- An entry whose expiry (50) has already passed at time 100. -/
def c3Expired : SessionInfo := ⟨c2Stored, 50⟩

/-- Claim C3's failing input evaluated: at observation time 100 the
`monitorExpiredSessions` sweep deletes the entry whose expiry lies
strictly in the future and keeps the already-expired entry — the
comparison is reversed relative to the claim (the `gc` variant of the
first revision does satisfy it: `gcDelete_only_removes_expired`). -/
theorem monitorExpired_removes_future_entry :
    monitorExpiredTick [("live", c3Live)] 100 = []
    ∧ (100 : Time) < c3Live.expiresTimestamp
    ∧ monitorExpiredTick [("expired", c3Expired)] 100 = [("expired", c3Expired)]
    ∧ c3Expired.expiresTimestamp ≤ (100 : Time) := by
  refine ⟨by decide, by decide, by decide, by decide⟩

/-- The scan phase of `memoryStore.gc` (first revision of `store.go`,
lines 252-280): append to the carried-over `expired` list every key whose
entry's expiry is at or before the scan's observation time. -/
def gcScan (sessions : List (String × MySession)) (expired : List String) (now : Time) :
    List String :=
  expired ++ (sessions.filter (fun kv => decide (kv.2.expiry ≤ now))).map Prod.fst

/-- The delete phase of `memoryStore.gc`: for each collected key, re-read
the entry under the write lock and delete it only when its expiry is
still at or before the freshly observed time (double-checked locking).
Re-reading a key that is no longer present yields the nil `*MySession`,
and `v.expiry` faults — embedded as `none`. -/
def gcDelete (sessions : List (String × MySession)) (expired : List String) (now : Time) :
    Option (List (String × MySession)) :=
  match expired with
  | [] => some sessions
  | k :: rest =>
    match alookup sessions k with
    | none => none
    | some v =>
      gcDelete (if v.expiry ≤ now then aremove sessions k else sessions) rest now

theorem alookup_aremove_ne {κ α : Type} [DecidableEq κ] (l : List (κ × α)) (k k0 : κ)
    (hne : k ≠ k0) : alookup (aremove l k0) k = alookup l k := by
  induction l with
  | nil => rfl
  | cons p rest ih =>
    obtain ⟨a, b⟩ := p
    by_cases ha : a = k0
    · subst ha
      simp [aremove, alookup, if_neg (fun h : a = k => hne h.symm)]
    · simp only [aremove, if_neg ha, alookup, ih]

/-- The `gc` sweep of the first-revision `memoryStore` satisfies the
property claim C3 states: whatever the delete phase removes was, at the
delete-time re-check, at or before the observation time — no entry with a
strictly future expiry is removed. -/
theorem gcDelete_only_removes_expired :
    ∀ (expired : List String) (sessions out : List (String × MySession)) (now : Time)
      (k : String) (v : MySession),
      gcDelete sessions expired now = some out →
      alookup sessions k = some v → alookup out k = none → v.expiry ≤ now := by
  intro expired
  induction expired with
  | nil =>
    intro sessions out now k v hdel hk hout
    simp only [gcDelete, Option.some.injEq] at hdel
    subst hdel
    rw [hk] at hout
    exact absurd hout (by simp)
  | cons k0 rest ih =>
    intro sessions out now k v hdel hk hout
    cases h0 : alookup sessions k0 with
    | none => simp [gcDelete, h0] at hdel
    | some v0 =>
      simp only [gcDelete, h0] at hdel
      by_cases hexp : v0.expiry ≤ now
      · rw [if_pos hexp] at hdel
        by_cases hkk : k = k0
        · subst hkk
          rw [hk] at h0
          cases h0
          exact hexp
        · have hk' : alookup (aremove sessions k0) k = some v := by
            rw [alookup_aremove_ne sessions k k0 hkk]
            exact hk
          exact ih _ _ _ _ _ hdel hk' hout
      · rw [if_neg hexp] at hdel
        exact ih _ _ _ _ _ hdel hk hout

/-- The alphabet of `generateRandomID` in `utils.go` (77 characters). -/
def lettersID : List Char :=
  "0123456789ABCDEFGHIJKLMNOPQRSTUVWXYZabcdefghijklmnopqrstuvwxyz=!@#$%^&*()-_+".toList

/-- Go `generateRandomID` (utils.go lines 14-26): allocate `n` cells and set
`ret[i] = letters[num]` for each of `n` draws `num` (each draw is
`rand.Int(rand.Reader, len(letters))`, uniform on `[0, len)`; a draw
failure is propagated).  The draws arrive as an oracle list; exhausting
the oracle is a generation error and an out-of-range draw (impossible for
`rand.Int`) is the index panic. -/
def generateRandomID : Nat → List (Except String Nat) → Except String (List Char)
  | 0, _ => .ok []
  | _+1, [] => .error "failed to generate session id: entropy source unavailable"
  | n+1, d :: rest =>
    match d with
    | .error e => .error ("failed to generate session id: " ++ e)
    | .ok num =>
      match lettersID[num]? with
      | none => .error "runtime error: index out of range"
      | some c =>
        match generateRandomID n rest with
        | .error e => .error e
        | .ok cs => .ok (c :: cs)

/-- The alphabet of `generateRandomString` in part_006/007
(63 characters). -/
def lettersRS : List Char :=
  "0123456789ABCDEFGHIJKLMNOPQRSTUVWXYZabcdefghijklmnopqrstuvwxyz#".toList

/-- The loop of part_006's `generateRandomString` (lines 158-170): the
accumulator starts as `make([]byte, n)` — `n` zero bytes — and each of the
`n` draws appends `letters[num]` after them (`ret = append(ret, ...)`). -/
def grsLoop : Nat → List (Except String Nat) → List Char → Except String (List Char)
  | 0, _, ret => .ok ret
  | _+1, [], _ => .error "failed to generate session id: entropy source unavailable"
  | n+1, d :: rest, ret =>
    match d with
    | .error e => .error ("failed to generate session id: " ++ e)
    | .ok num =>
      match lettersRS[num]? with
      | none => .error "runtime error: index out of range"
      | some c => grsLoop n rest (ret ++ [c])

/-- Go `generateRandomString` (part_006 lines 158-170). -/
def generateRandomString (n : Nat) (draws : List (Except String Nat)) :
    Except String (List Char) :=
  grsLoop n draws (List.replicate n (Char.ofNat 0))

/-- Claim C8's failing input evaluated: `generateRandomString 2` with
draws 0 and 1 returns the four bytes `[NUL, NUL, '0', '1']` — twice the
requested length, with the two leading NUL bytes outside the generator's
alphabet (the `make([]byte, n)` prefix survives the appends).  The
`generateRandomID` variant of `utils.go` returns `['0', '1']`, length 2,
as the claim states (see `generateRandomID_length_alphabet`). -/
theorem generateRandomString_wrong_length_and_alphabet :
    generateRandomString 2 [.ok 0, .ok 1] = .ok [Char.ofNat 0, Char.ofNat 0, '0', '1']
    ∧ [Char.ofNat 0, Char.ofNat 0, '0', '1'].length ≠ 2
    ∧ lettersRS.contains (Char.ofNat 0) = false
    ∧ generateRandomID 2 [.ok 0, .ok 1] = .ok ['0', '1'] := by
  refine ⟨by rfl, by decide, by decide, by rfl⟩

/-- Go `generateRandomID` (utils.go) does meet the contract of claim C8:
given draws that all succeed in range, it returns exactly `n` characters,
each a member of its fixed alphabet. -/
theorem generateRandomID_length_alphabet :
    ∀ (n : Nat) (draws : List (Except String Nat)) (cs : List Char),
      generateRandomID n draws = .ok cs →
      cs.length = n ∧ ∀ c ∈ cs, c ∈ lettersID := by
  intro n
  induction n with
  | zero =>
    intro draws cs hok
    simp only [generateRandomID, Except.ok.injEq] at hok
    subst hok
    exact ⟨rfl, fun c hc => absurd hc (List.not_mem_nil _)⟩
  | succ n ih =>
    intro draws cs hok
    cases draws with
    | nil => simp [generateRandomID] at hok
    | cons d rest =>
      cases d with
      | error e => simp [generateRandomID] at hok
      | ok num =>
        cases hg : lettersID[num]? with
        | none => simp [generateRandomID, hg] at hok
        | some c =>
          cases hr : generateRandomID n rest with
          | error e => simp [generateRandomID, hg, hr] at hok
          | ok cs0 =>
            simp only [generateRandomID, hg, hr, Except.ok.injEq] at hok
            subst hok
            obtain ⟨hlen, hmem⟩ := ih rest cs0 hr
            refine ⟨by simp [hlen], ?_⟩
            intro x hx
            rcases List.mem_cons.mp hx with hx | hx
            · subst hx
              obtain ⟨hn, rfl⟩ := List.getElem?_eq_some_iff.mp hg
              exact List.getElem_mem hn
            · exact hmem x hx

end Sessions
